import Mathlib

/-!
Verification of the table-cleaning core of the data-table-cleaner
application (src/src/App.jsx).  The definitions below are a shallow
embedding of the JavaScript functions `splitLine`, `normalizeCell`,
`rowHasAnyValue`, `removeEmptyColumns`, `parseRowsSimple`, `scoreTable`,
`chooseBestTableSimple`, `applyCleaning`, `escapeMarkdownCell`,
`toMarkdownTable` and of the delimiter-selection logic of the main
`useMemo` block.  Strings are modelled as Lean `String`, JavaScript
arrays as `List`, the JavaScript number `Infinity` that `scoreTable`
can return as the `none` of an `Option Nat`.

Definitions whose names begin with `spec_` are transcriptions of the
natural-language specification, used to compare the code against the
spec's wording; all other definitions are translated from the source.
-/

/-- The character class of JavaScript's `\s` regex escape and of
`String.prototype.trim`: ASCII whitespace, NBSP, the Unicode space
separators, line/paragraph separators, and the BOM. -/
def isJsWhitespace (c : Char) : Bool :=
  c = ' ' || c = '\t' || c = '\n' || c = '\r' || c = '\x0b' || c = '\x0c' ||
  c = ' ' || c = ' ' ||
  (' '.val ≤ c.val && c.val ≤ ' '.val) ||
  c = ' ' || c = ' ' || c = ' ' || c = ' ' || c = '　' ||
  c = '﻿'

/-- JavaScript `s.trim()` on the character list: drop whitespace from
both ends. -/
def trimJs (l : List Char) : List Char :=
  ((l.dropWhile isJsWhitespace).reverse.dropWhile isJsWhitespace).reverse

/-- JavaScript `s.replace(/\s+/g, " ")` on the character list.  The
boolean argument records whether the previously scanned character was
whitespace (in which case further whitespace is absorbed into the same
single replacement space). -/
def collapseWs : Bool → List Char → List Char
  | _, [] => []
  | prevWs, c :: rest =>
    if isJsWhitespace c then
      if prevWs then collapseWs true rest
      else ' ' :: collapseWs true rest
    else c :: collapseWs false rest

/-- `normalizeCell` from App.jsx: identity when `collapseSpaces` is
false, otherwise `s.trim().replace(/\s+/g, " ")`. -/
def normalizeCell (cell : String) (collapseSpaces : Bool) : String :=
  if collapseSpaces then String.mk (collapseWs false (trimJs cell.data)) else cell

/-- JavaScript `s.trim()` on strings. -/
def jsTrimStr (s : String) : String := String.mk (trimJs s.data)

/-- Try to remove the separator `sep` from the front of `l`; `some`
of the remainder on success.  Used to model the leftmost-match search
of JavaScript `String.prototype.split` with a string separator. -/
def stripSep : List Char → List Char → Option (List Char)
  | [], l => some l
  | _ :: _, [] => none
  | s :: ss, c :: rest => if c = s then stripSep ss rest else none

/-- Fuel-driven worker for literal splitting.  At every position it
tries to match the (non-empty) separator; on a match it emits the
accumulated token and restarts after the separator, otherwise it moves
one character.  With `fuel` at least the length of the input the fuel
never runs out. -/
def splitOnF (sep : List Char) : Nat → List Char → List Char → List (List Char)
  | 0, acc, rest => [acc.reverse ++ rest]
  | _ + 1, acc, [] => [acc.reverse]
  | fuel + 1, acc, c :: rest =>
    match stripSep sep (c :: rest) with
    | some rem => acc.reverse :: splitOnF sep fuel [] rem
    | none => splitOnF sep fuel (c :: acc) rest

/-- JavaScript `line.split(delim)` for a non-empty string separator:
split on non-overlapping leftmost occurrences; an empty input yields
`[""]`, separators at the ends yield empty tokens. -/
def jsSplitStr (s d : String) : List String :=
  (splitOnF d.data s.data.length [] s.data).map String.mk

/-- Worker modelling `line.split(/ {2,}/)`.  `mode` is 0 while scanning
a token, 1 after exactly one pending space, 2 inside a separator run of
two or more spaces (the pattern is greedy, so the whole run is one
separator). -/
def splitSpAux (mode : Nat) (acc : List Char) : List Char → List (List Char)
  | [] =>
    if mode = 2 then [acc.reverse, []]
    else if mode = 1 then [(' ' :: acc).reverse]
    else [acc.reverse]
  | c :: rest =>
    if c = ' ' then
      if mode = 0 then splitSpAux 1 acc rest
      else splitSpAux 2 acc rest
    else
      if mode = 0 then splitSpAux 0 (c :: acc) rest
      else if mode = 1 then splitSpAux 0 (c :: ' ' :: acc) rest
      else acc.reverse :: splitSpAux 0 [c] rest

/-- JavaScript `line.split(/ {2,}/)`: split on maximal runs of two or
more space characters; single spaces stay inside the tokens. -/
def splitSpaces2 (s : String) : List String :=
  (splitSpAux 0 [] s.data).map String.mk

/-- The delimiter-less branch of `splitLine` from App.jsx: tab if the
line contains one, else semicolon, else pipe, else a run of two or
more spaces. -/
def autoSplit (line : String) : List String :=
  if line.data.contains '\t' then jsSplitStr line "\t"
  else if line.data.contains ';' then jsSplitStr line ";"
  else if line.data.contains '|' then jsSplitStr line "|"
  else splitSpaces2 line

/-- `splitLine` from App.jsx.  A `none` delimiter models the JavaScript
`null`; the empty string is falsy in JavaScript, so it also selects the
fallback branch. -/
def splitLine (line : String) (delimiter : Option String) : List String :=
  match delimiter with
  | some d => if d = "" then autoSplit line else jsSplitStr line d
  | none => autoSplit line

/-- Transcribed from the specification, for comparison with the code:
"a line is split on the first delimiter type actually found in it,
tried in priority order tab, then semicolon, then pipe, then a run of
2+ spaces". -/
def spec_perLineSplit (line : String) : List String :=
  if line.data.contains '\t' then jsSplitStr line "\t"
  else if line.data.contains ';' then jsSplitStr line ";"
  else if line.data.contains '|' then jsSplitStr line "|"
  else splitSpaces2 line

/-- `parseRowsSimple` from App.jsx: split every line, then normalize
every cell. -/
def parseRowsSimple (lines : List String) (delimiter : Option String)
    (collapseSpaces : Bool) : List (List String) :=
  lines.map fun line => (splitLine line delimiter).map fun c => normalizeCell c collapseSpaces

/-- `rowHasAnyValue` from App.jsx: some cell is non-empty after
trimming. -/
def rowHasAnyValue (row : List String) : Bool :=
  row.any fun c => !(trimJs c.data).isEmpty

/-- Keep the elements of a list whose (zero-based, offset by `i`)
positions satisfy `keep`; this is `row.filter((_, j) => colHasValue[j])`
from `removeEmptyColumns`. -/
def filterIdx (keep : Nat → Bool) : Nat → List α → List α
  | _, [] => []
  | i, c :: rest =>
    if keep i then c :: filterIdx keep (i + 1) rest else filterIdx keep (i + 1) rest

/-- Column `j` holds a value somewhere in the table: some row's cell at
index `j` (an absent cell reads as `""`) is non-empty after trimming.
This is the `colHasValue` array of App.jsx read at index `j`; the code
only ever reads indices `j < row.length ≤ maxCols`, for which the array
entry equals this predicate. -/
def colHasValue (table : List (List String)) (j : Nat) : Bool :=
  table.any fun row => !(trimJs (row.getD j "").data).isEmpty

/-- `removeEmptyColumns` from App.jsx: drop from every row the cells
whose column index holds no value anywhere in the table.  Rows are
filtered over their own indices only; no padding is performed. -/
def removeEmptyColumns (table : List (List String)) : List (List String) :=
  if table.isEmpty then table
  else table.map fun row => filterIdx (fun j => colHasValue table j) 0 row

/-- The three cleaning switches read by `applyCleaning` in App.jsx. -/
structure CleaningOptions where
  collapseSpaces : Bool
  removeEmptyRows : Bool
  removeEmptyColumns : Bool

/-- `applyCleaning` from App.jsx: normalize every cell, then optionally
drop all-empty rows, then optionally drop empty columns. -/
def applyCleaning (opts : CleaningOptions) (t : List (List String)) : List (List String) :=
  let out := t.map fun row => row.map fun c => normalizeCell c opts.collapseSpaces
  let out := if opts.removeEmptyRows then out.filter rowHasAnyValue else out
  if opts.removeEmptyColumns then removeEmptyColumns out else out

/-- One `counts.set(n, (counts.get(n) || 0) + 1)` step on the insertion
ordered association list modelling the JavaScript `Map` of
`scoreTable`. -/
def bumpCount : List (Nat × Nat) → Nat → List (Nat × Nat)
  | [], n => [(n, 1)]
  | (k, v) :: rest, n =>
    if k = n then (k, v + 1) :: rest else (k, v) :: bumpCount rest n

/-- The frequency map of `scoreTable`: `(value, frequency)` pairs in
insertion order of first occurrence, as a JavaScript `Map` iterates. -/
def countsOf (l : List Nat) : List (Nat × Nat) := l.foldl bumpCount []

/-- The mode-selection loop of `scoreTable`: scan entries, keep the
first entry whose frequency strictly exceeds the best so far; returns
`(bestCount, modeCols)`. -/
def pickMode (counts : List (Nat × Nat)) : Nat × Nat :=
  counts.foldl (fun acc p => if p.2 > acc.1 then (p.2, p.1) else acc) (0, 0)

/-- `Math.abs(n - m)` for the natural row counts. -/
def absDiff (a b : Nat) : Nat := (a - b) + (b - a)

/-- `scoreTable` from App.jsx; `none` models the JavaScript `Infinity`
result (lower is better, `none` is worst). -/
def scoreTable (table : List (List String)) : Option Nat :=
  let rowLengths := (table.map List.length).filter fun n => n > 0
  if rowLengths.isEmpty then none
  else
    let maxCols := rowLengths.foldl Nat.max 0
    if maxCols ≤ 1 then none
    else
      let bm := pickMode (countsOf rowLengths)
      some ((rowLengths.length - bm.1) * 10 +
        rowLengths.foldl (fun sum n => sum + absDiff n bm.2) 0)

/-- The values of `l` not in `seen`, in order of first occurrence.
Helper for relating the `Map` of `scoreTable` to the specification's
"insertion order of first occurrence". -/
def newKeys : List Nat → List Nat → List Nat
  | _, [] => []
  | seen, n :: rest =>
    if n ∈ seen then newKeys seen rest else n :: newKeys (n :: seen) rest

/-- Transcribed from the specification: the distinct cell-count values
in the order in which they are first encountered. -/
def firstOccs (l : List Nat) : List Nat :=
  l.foldl (fun acc n => if n ∈ acc then acc else acc ++ [n]) []

/-- Transcribed from the specification: "find the most frequent
cell-count value across rows (the mode); ties broken by whichever mode
value is encountered first while scanning counts in insertion order of
first occurrence". -/
def spec_mode (l : List Nat) : Nat :=
  (firstOccs l).foldl (fun best v => if l.count v > l.count best then v else best) 0

/-- Transcribed from the specification of the consistency score:
discard zero-cell rows; infinite (`none`) when the distribution is
empty or the maximum cell count is at most 1; otherwise
`10 × (number of rows whose cell count ≠ mode) + Σ |count − mode|`. -/
def spec_scoreTable (table : List (List String)) : Option Nat :=
  let rowLengths := (table.map List.length).filter fun n => n > 0
  if rowLengths.isEmpty then none
  else if rowLengths.foldl Nat.max 0 ≤ 1 then none
  else
    let m := spec_mode rowLengths
    some (10 * (rowLengths.filter fun n => n ≠ m).length +
      ((rowLengths.map fun n => absDiff n m).sum))

/-- The strict `<` of JavaScript numbers on scores, with `none` playing
`Infinity`: a finite score is below `Infinity`, and
`Infinity < Infinity` is false. -/
def optLt : Option Nat → Option Nat → Bool
  | some a, some b => a < b
  | some _, none => true
  | none, _ => false

/-- The accumulator of the candidate loop in `chooseBestTableSimple`:
current best table, its strategy label, its score. -/
structure ChooseAcc where
  best : List (List String)
  bestDetected : String
  bestScore : Option Nat

/-- One iteration of the candidate loop of `chooseBestTableSimple`:
parse with the candidate's delimiter, replace the accumulator exactly
when the new score is strictly lower. -/
def chooseStep (lines : List String) (collapseSpaces : Bool)
    (acc : ChooseAcc) (c : String × Option String) : ChooseAcc :=
  let parsed := parseRowsSimple lines c.2 collapseSpaces
  let s := scoreTable parsed
  if optLt s acc.bestScore then ⟨parsed, c.1, s⟩ else acc

/-- The fixed candidate list of `chooseBestTableSimple`, in evaluation
order; `none` is the JavaScript `null` of the `spaces` candidate. -/
def candList : List (String × Option String) :=
  [("tabs", some "\t"), ("pipe", some "|"), ("semicolon", some ";"), ("spaces", none)]

/-- `chooseBestTableSimple` from App.jsx: evaluate candidates in order
starting from the empty table labelled `"auto"` with `Infinity` score,
return the final best table and label. -/
def chooseBestTableSimple (lines : List String) (collapseSpaces : Bool) :
    List (List String) × String :=
  let final := candList.foldl (chooseStep lines collapseSpaces) ⟨[], "auto", none⟩
  (final.best, final.bestDetected)

/-- The score of the `j`-th candidate (0 = tabs, 1 = pipe,
2 = semicolon, 3 = spaces) on the given input. -/
def scoreAt (lines : List String) (collapseSpaces : Bool) (j : Nat) : Option Nat :=
  scoreTable (parseRowsSimple lines (candList.getD j ("", none)).2 collapseSpaces)

/-- The comma classification of the main `useMemo` block: some line
contains a comma and no line contains a pipe or a semicolon. -/
def looksLikeCSV (lines : List String) : Bool :=
  !lines.isEmpty && (lines.any fun r => r.data.contains ',') &&
    !(lines.any fun r => r.data.contains '|' || r.data.contains ';')

/-- The delimiter-selection logic of the main `useMemo` block, without
the cleaning pass that the component applies afterwards.  A non-empty
explicit delimiter wins outright with the label `custom (<delimiter>)`
(the code's template literal places a space before the parenthesis).
The comma branch hands the text to the external delimited-text reader
(Papa.parse), which the specification places outside the core; that
branch is `none` here.  Otherwise the four candidates are scored. -/
def infer (lines : List String) (explicitDelimiter : String) (collapseSpaces : Bool) :
    Option (List (List String) × String) :=
  if explicitDelimiter ≠ "" then
    some (parseRowsSimple lines (some explicitDelimiter) collapseSpaces,
      "custom (" ++ explicitDelimiter ++ ")")
  else if looksLikeCSV lines then none
  else some (chooseBestTableSimple lines collapseSpaces)

/-- `s.replace(/\r?\n/g, " ")`: every `\r\n` pair and every lone `\n`
becomes one space; a lone `\r` is untouched. -/
def mdNewlines : List Char → List Char
  | [] => []
  | '\r' :: '\n' :: rest => ' ' :: mdNewlines rest
  | '\n' :: rest => ' ' :: mdNewlines rest
  | c :: rest => c :: mdNewlines rest

/-- `s.replace(/\|/g, "\\|")`: escape every pipe with a backslash. -/
def escPipes : List Char → List Char
  | [] => []
  | '|' :: rest => '\\' :: '|' :: escPipes rest
  | c :: rest => c :: escPipes rest

/-- `escapeMarkdownCell` from App.jsx. -/
def escapeMarkdownCell (s : String) : String :=
  String.mk (escPipes (mdNewlines s.data))

/-- JavaScript `Array.prototype.join(sep)`. -/
def joinSep (sep : String) : List String → String
  | [] => ""
  | [x] => x
  | x :: y :: rest => x ++ sep ++ joinSep sep (y :: rest)

/-- `toMarkdownTable` from App.jsx: pad every row to the maximum row
length, escape every cell, render the first row as header followed by
the `---` separator line and the body rows, one `| c1 | c2 | ... |`
line each, joined by newlines. -/
def toMarkdownTable (data : List (List String)) : String :=
  if data.isEmpty then ""
  else
    let maxCols := (data.map List.length).foldl Nat.max 0
    let padded := data.map fun r =>
      ((List.range maxCols).map fun i => r.getD i "").map escapeMarkdownCell
    let header := padded.headD []
    let body := padded.drop 1
    let headerLine := "| " ++ joinSep " | " header ++ " |"
    let separatorLine := "| " ++ joinSep " | " (header.map fun _ => "---") ++ " |"
    let bodyLines := body.map fun row => "| " ++ joinSep " | " row ++ " |"
    joinSep "\n" (headerLine :: separatorLine :: bodyLines)

/-- Transcribed from the specification: pad a row to width `w` with
empty strings. -/
def spec_padRow (w : Nat) (r : List String) : List String :=
  (List.range w).map fun i => r.getD i ""

/-- Transcribed from the specification: render one table row as
`| c1 | c2 | ... |` after escaping each cell. -/
def spec_renderRow (cells : List String) : String :=
  "| " ++ joinSep " | " (cells.map escapeMarkdownCell) ++ " |"

/-- Transcribed from the specification of Markdown serialization: pad
all rows to the maximum row length with the first row as header, emit
the header line, then a `| --- | ... |` line with one `---` per
column, then one line per body row. -/
def spec_serializeMarkdown (data : List (List String)) : String :=
  match data with
  | [] => ""
  | headRow :: rest =>
    let w := (data.map List.length).foldl Nat.max 0
    let headerLine := spec_renderRow (spec_padRow w headRow)
    let sepLine := "| " ++ joinSep " | " ((List.range w).map fun _ => "---") ++ " |"
    joinSep "\n" (headerLine :: sepLine :: rest.map fun r => spec_renderRow (spec_padRow w r))

/-- The positions in `[i, i + n)` accepted by `keep`, in increasing
order.  `filterIdx keep i r` keeps exactly the cells of `r` sitting at
these positions (with `n = r.length`); used to reason about
`removeEmptyColumns`. -/
def keptBelow (keep : Nat → Bool) : Nat → Nat → List Nat
  | _, 0 => []
  | i, n + 1 =>
    if keep i then i :: keptBelow keep (i + 1) n else keptBelow keep (i + 1) n


/-! ### Lemmas about `filterIdx` and `keptBelow` -/

theorem keptBelow_zero (keep : Nat → Bool) (i : Nat) : keptBelow keep i 0 = [] := rfl

theorem keptBelow_succ (keep : Nat → Bool) (i n : Nat) :
    keptBelow keep i (n + 1) =
      if keep i then i :: keptBelow keep (i + 1) n else keptBelow keep (i + 1) n := rfl

theorem filterIdx_nil (keep : Nat → Bool) (i : Nat) :
    filterIdx keep i ([] : List α) = [] := rfl

theorem filterIdx_cons (keep : Nat → Bool) (i : Nat) (c : α) (rest : List α) :
    filterIdx keep i (c :: rest) =
      if keep i then c :: filterIdx keep (i + 1) rest else filterIdx keep (i + 1) rest := rfl

theorem filterIdx_length (keep : Nat → Bool) (r : List α) :
    ∀ i, (filterIdx keep i r).length = (keptBelow keep i r.length).length := by
  induction r with
  | nil => intro i; rfl
  | cons c rest ih =>
    intro i
    rw [filterIdx_cons, List.length_cons, keptBelow_succ]
    by_cases h : keep i = true
    · simp [h, ih]
    · simp [h, ih]

theorem keptBelow_mem (keep : Nat → Bool) :
    ∀ n i j, j ∈ keptBelow keep i n → keep j = true ∧ i ≤ j ∧ j < i + n := by
  intro n
  induction n with
  | zero => intro i j h; simp [keptBelow_zero] at h
  | succ m ih =>
    intro i j h
    rw [keptBelow_succ] at h
    by_cases hk : keep i = true
    · simp only [hk, if_true] at h
      rcases List.mem_cons.mp h with h | h
      · subst h; exact ⟨hk, Nat.le_refl _, by omega⟩
      · have := ih (i + 1) j h
        exact ⟨this.1, by omega, by omega⟩
    · simp only [hk, if_false] at h
      have := ih (i + 1) j h
      exact ⟨this.1, by omega, by omega⟩

theorem keptBelow_append (keep : Nat → Bool) :
    ∀ a i b, keptBelow keep i (a + b) = keptBelow keep i a ++ keptBelow keep (i + a) b := by
  intro a
  induction a with
  | zero => intro i b; simp [keptBelow_zero]
  | succ m ih =>
    intro i b
    have hab : m + 1 + b = (m + b) + 1 := by omega
    rw [hab, keptBelow_succ, keptBelow_succ, ih (i + 1) b]
    have hia : i + 1 + m = i + (m + 1) := by omega
    rw [hia]
    by_cases hk : keep i = true
    · simp [hk]
    · simp [hk]

theorem mem_of_getElemQ {l : List α} {k : Nat} {a : α} (h : l[k]? = some a) : a ∈ l := by
  rcases List.getElem?_eq_some.mp h with ⟨hk, hg⟩
  exact hg ▸ List.getElem_mem hk

theorem filterIdx_getElem? (keep : Nat → Bool) (r : List α) :
    ∀ (i k : Nat), (filterIdx keep i r)[k]? =
      ((keptBelow keep i r.length)[k]?).bind (fun j : Nat => r[j - i]?) := by
  induction r with
  | nil => intro i k; simp [filterIdx_nil, keptBelow_zero]
  | cons c rest ih =>
    intro i k
    rw [filterIdx_cons, List.length_cons, keptBelow_succ]
    by_cases hk : keep i = true
    · simp only [hk, if_true]
      cases k with
      | zero => simp
      | succ m =>
        rw [List.getElem?_cons_succ, List.getElem?_cons_succ, ih (i + 1) m]
        cases hj : (keptBelow keep (i + 1) rest.length)[m]? with
        | none => simp
        | some j =>
          have hmem : j ∈ keptBelow keep (i + 1) rest.length := mem_of_getElemQ hj
          have hb := keptBelow_mem keep rest.length (i + 1) j hmem
          have h1 : j - i = (j - (i + 1)) + 1 := by omega
          simp only [Option.some_bind, h1, List.getElem?_cons_succ]
    · simp only [hk, Bool.false_eq_true, if_false]
      rw [ih (i + 1) k]
      cases hj : (keptBelow keep (i + 1) rest.length)[k]? with
      | none => simp
      | some j =>
        have hmem : j ∈ keptBelow keep (i + 1) rest.length := mem_of_getElemQ hj
        have hb := keptBelow_mem keep rest.length (i + 1) j hmem
        have h1 : j - i = (j - (i + 1)) + 1 := by omega
        simp only [Option.some_bind, h1, List.getElem?_cons_succ]

theorem filterIdx_map (keep : Nat → Bool) (f : α → β) (r : List α) :
    ∀ i, (filterIdx keep i r).map f = filterIdx keep i (r.map f) := by
  induction r with
  | nil => intro i; rfl
  | cons c rest ih =>
    intro i
    rw [List.map_cons, filterIdx_cons, filterIdx_cons]
    by_cases hk : keep i = true
    · simp [hk, ih]
    · simp [hk, ih]

theorem filterIdx_eq_self (keep : Nat → Bool) (r : List α) :
    ∀ i, (∀ k, k < r.length → keep (i + k) = true) → filterIdx keep i r = r := by
  induction r with
  | nil => intro i _; rfl
  | cons c rest ih =>
    intro i h
    have h0 : keep i = true := by
      have := h 0 (by simp)
      simpa using this
    rw [filterIdx_cons]
    simp only [h0, if_true]
    congr 1
    exact ih (i + 1) fun k hk => by
      have := h (k + 1) (by simpa using Nat.succ_lt_succ hk)
      simpa [Nat.add_assoc, Nat.add_comm 1 k] using this

theorem mem_filterIdx (keep : Nat → Bool) (r : List α) :
    ∀ i j (hj : j < r.length), keep (i + j) = true →
      r.get ⟨j, hj⟩ ∈ filterIdx keep i r := by
  induction r with
  | nil => intro i j hj; simp at hj
  | cons c rest ih =>
    intro i j hj hk
    rw [filterIdx_cons]
    cases j with
    | zero =>
      have h0 : keep i = true := by simpa using hk
      simp [h0, List.get]
    | succ m =>
      have hm : m < rest.length := by simpa using Nat.lt_of_succ_lt_succ hj
      have hk' : keep (i + 1 + m) = true := by
        have heq : i + 1 + m = i + (m + 1) := by omega
        rw [heq]; exact hk
      have hmem := ih (i + 1) m hm hk'
      by_cases h0 : keep i = true
      · simp only [h0, if_true, List.get]
        exact List.mem_cons_of_mem _ hmem
      · simp only [h0, if_false, List.get]
        exact hmem

/-! ### Lemmas about trimming and whitespace collapsing -/

theorem dropWhile_head_false (p : α → Bool) :
    ∀ (l : List α) c t, l.dropWhile p = c :: t → p c = false := by
  intro l
  induction l with
  | nil => intro c t h; simp [List.dropWhile_nil] at h
  | cons a rest ih =>
    intro c t h
    rw [List.dropWhile_cons] at h
    by_cases hp : p a = true
    · rw [if_pos hp] at h; exact ih c t h
    · rw [if_neg hp] at h
      cases h
      simpa using hp

theorem exists_append_dropWhile (p : α → Bool) :
    ∀ l : List α, ∃ C, l = C ++ l.dropWhile p := by
  intro l
  induction l with
  | nil => exact ⟨[], rfl⟩
  | cons a rest ih =>
    rw [List.dropWhile_cons]
    by_cases hp : p a = true
    · rcases ih with ⟨C, hC⟩
      exact ⟨a :: C, by rw [if_pos hp]; simpa using hC⟩
    · exact ⟨[], by rw [if_neg hp]; rfl⟩

theorem dropWhile_eq_self_of_head (p : α → Bool) (l : List α)
    (h : ∀ c t, l = c :: t → p c = false) : l.dropWhile p = l := by
  cases l with
  | nil => rfl
  | cons a rest =>
    rw [List.dropWhile_cons, if_neg]
    simp [h a rest rfl]

theorem trimJs_head (l : List Char) (c : Char) (t : List Char)
    (h : trimJs l = c :: t) : isJsWhitespace c = false := by
  unfold trimJs at h
  rcases exists_append_dropWhile isJsWhitespace (l.dropWhile isJsWhitespace).reverse with ⟨C, hC⟩
  have hX : l.dropWhile isJsWhitespace =
      ((l.dropWhile isJsWhitespace).reverse.dropWhile isJsWhitespace).reverse ++ C.reverse := by
    have := congrArg List.reverse hC
    rwa [List.reverse_reverse, List.reverse_append] at this
  rw [h] at hX
  exact dropWhile_head_false isJsWhitespace l c (t ++ C.reverse) (by simpa using hX)

theorem trimJs_last (l : List Char) (c : Char)
    (h : (trimJs l).getLast? = some c) : isJsWhitespace c = false := by
  unfold trimJs at h
  rw [List.getLast?_reverse] at h
  cases hD : (l.dropWhile isJsWhitespace).reverse.dropWhile isJsWhitespace with
  | nil => rw [hD] at h; simp at h
  | cons d r =>
    rw [hD] at h
    have hd : d = c := by simpa using h
    subst hd
    exact dropWhile_head_false isJsWhitespace (l.dropWhile isJsWhitespace).reverse _ _ hD

theorem trimJs_eq_self (l : List Char)
    (hhead : ∀ c t, l = c :: t → isJsWhitespace c = false)
    (hlast : ∀ c, l.getLast? = some c → isJsWhitespace c = false) :
    trimJs l = l := by
  unfold trimJs
  rw [dropWhile_eq_self_of_head isJsWhitespace l hhead]
  rw [dropWhile_eq_self_of_head isJsWhitespace l.reverse (by
    intro c t hc
    apply hlast
    have : l.reverse.head? = some c := by rw [hc]; rfl
    rwa [List.head?_reverse] at this)]
  exact List.reverse_reverse l

theorem collapseWs_cons_not (b : Bool) (c : Char) (rest : List Char)
    (hc : isJsWhitespace c = false) :
    collapseWs b (c :: rest) = c :: collapseWs false rest := by
  simp [collapseWs, hc]

theorem collapseWs_cons_ws_false (c : Char) (rest : List Char)
    (hc : isJsWhitespace c = true) :
    collapseWs false (c :: rest) = ' ' :: collapseWs true rest := by
  simp [collapseWs, hc]

theorem collapseWs_cons_ws_true (c : Char) (rest : List Char)
    (hc : isJsWhitespace c = true) :
    collapseWs true (c :: rest) = collapseWs true rest := by
  simp [collapseWs, hc]

theorem collapseWs_idem (l : List Char) :
    collapseWs false (collapseWs false l) = collapseWs false l ∧
      collapseWs true (collapseWs true l) = collapseWs true l := by
  induction l with
  | nil => exact ⟨rfl, rfl⟩
  | cons c rest ih =>
    by_cases hc : isJsWhitespace c = true
    · constructor
      · rw [collapseWs_cons_ws_false c rest hc,
          collapseWs_cons_ws_false ' ' (collapseWs true rest) (by decide), ih.2]
      · rw [collapseWs_cons_ws_true c rest hc, ih.2]
    · have hc' : isJsWhitespace c = false := by simpa using hc
      constructor
      · rw [collapseWs_cons_not false c rest hc',
          collapseWs_cons_not false c (collapseWs false rest) hc', ih.1]
      · rw [collapseWs_cons_not true c rest hc',
          collapseWs_cons_not true c (collapseWs false rest) hc', ih.1]

theorem getLast?_cons_of_ne (a : α) (X : List α) (h : X ≠ []) :
    (a :: X).getLast? = X.getLast? := by
  cases X with
  | nil => exact absurd rfl h
  | cons d r => exact List.getLast?_cons_cons

theorem collapseWs_last :
    ∀ (l : List Char) (b : Bool) (c : Char), l.getLast? = some c →
      isJsWhitespace c = false →
      ∃ c2, (collapseWs b l).getLast? = some c2 ∧ isJsWhitespace c2 = false := by
  intro l
  induction l with
  | nil => intro b c h; simp at h
  | cons a rest ih =>
    intro b c h hc
    cases rest with
    | nil =>
      have hac : a = c := by simpa using h
      refine ⟨c, ?_, hc⟩
      rw [hac, collapseWs_cons_not b c [] hc]
      rfl
    | cons d r =>
      rw [List.getLast?_cons_cons] at h
      by_cases ha : isJsWhitespace a = true
      · cases b with
        | true =>
          rw [collapseWs_cons_ws_true a (d :: r) ha]
          exact ih true c h hc
        | false =>
          rw [collapseWs_cons_ws_false a (d :: r) ha]
          rcases ih true c h hc with ⟨c2, hc2, hw2⟩
          refine ⟨c2, ?_, hw2⟩
          rw [getLast?_cons_of_ne ' ' _ (by intro hnil; rw [hnil] at hc2; simp at hc2)]
          exact hc2
      · have ha' : isJsWhitespace a = false := by simpa using ha
        rw [collapseWs_cons_not b a (d :: r) ha']
        rcases ih false c h hc with ⟨c2, hc2, hw2⟩
        refine ⟨c2, ?_, hw2⟩
        rw [getLast?_cons_of_ne a _ (by intro hnil; rw [hnil] at hc2; simp at hc2)]
        exact hc2

theorem normalizeCell_idem (c : String) (b : Bool) :
    normalizeCell (normalizeCell c b) b = normalizeCell c b := by
  cases b with
  | false => rfl
  | true =>
    show String.mk (collapseWs false (trimJs (String.mk (collapseWs false (trimJs c.data))).data)) =
      String.mk (collapseWs false (trimJs c.data))
    have hdata : (String.mk (collapseWs false (trimJs c.data))).data =
      collapseWs false (trimJs c.data) := rfl
    rw [hdata]
    have htrim : trimJs (collapseWs false (trimJs c.data)) = collapseWs false (trimJs c.data) := by
      apply trimJs_eq_self
      · intro c0 t0 h0
        cases ht : trimJs c.data with
        | nil => rw [ht] at h0; simp [collapseWs] at h0
        | cons c1 t1 =>
          have hw1 : isJsWhitespace c1 = false := trimJs_head c.data c1 t1 ht
          rw [ht, collapseWs_cons_not false c1 t1 hw1] at h0
          cases h0
          exact hw1
      · intro c0 h0
        cases ht : trimJs c.data with
        | nil => rw [ht] at h0; simp [collapseWs] at h0
        | cons c1 t1 =>
          rw [ht] at h0
          cases hlast : (c1 :: t1).getLast? with
          | none => simp at hlast
          | some cl =>
            have hwl : isJsWhitespace cl = false := by
              apply trimJs_last c.data cl
              rw [ht]; exact hlast
            rcases collapseWs_last (c1 :: t1) false cl hlast hwl with ⟨c2, hc2, hw2⟩
            rw [h0] at hc2
            cases hc2
            exact hw2
    rw [htrim, (collapseWs_idem (trimJs c.data)).1]

/-! ### Lemmas about the consistency score -/

theorem newKeys_nil (seen : List Nat) : newKeys seen [] = [] := rfl

theorem newKeys_cons (seen : List Nat) (n : Nat) (rest : List Nat) :
    newKeys seen (n :: rest) =
      if n ∈ seen then newKeys seen rest else n :: newKeys (n :: seen) rest := rfl

theorem newKeys_congr : ∀ (l s1 s2 : List Nat), (∀ k, k ∈ s1 ↔ k ∈ s2) →
    newKeys s1 l = newKeys s2 l := by
  intro l
  induction l with
  | nil => intro s1 s2 _; rfl
  | cons n rest ih =>
    intro s1 s2 h
    rw [newKeys_cons, newKeys_cons]
    by_cases h1 : n ∈ s1
    · rw [if_pos h1, if_pos ((h n).mp h1)]
      exact ih s1 s2 h
    · rw [if_neg h1, if_neg (fun h2 => h1 ((h n).mpr h2))]
      congr 1
      exact ih (n :: s1) (n :: s2) fun k => by simp [h k]

theorem newKeys_not_mem : ∀ (l seen : List Nat) (k : Nat), k ∈ newKeys seen l → k ∉ seen := by
  intro l
  induction l with
  | nil => intro seen k h; rw [newKeys_nil] at h; simp at h
  | cons n rest ih =>
    intro seen k h
    rw [newKeys_cons] at h
    by_cases h1 : n ∈ seen
    · rw [if_pos h1] at h
      exact ih seen k h
    · rw [if_neg h1] at h
      rcases List.mem_cons.mp h with rfl | h2
      · exact h1
      · have h3 := ih (n :: seen) k h2
        intro hk
        exact h3 (List.mem_cons_of_mem n hk)

theorem bumpCount_nil (n : Nat) : bumpCount [] n = [(n, 1)] := rfl

theorem bumpCount_cons (k v : Nat) (rest : List (Nat × Nat)) (n : Nat) :
    bumpCount ((k, v) :: rest) n =
      if k = n then (k, v + 1) :: rest else (k, v) :: bumpCount rest n := rfl

theorem mapIte_keys (m : List (Nat × Nat)) (n : Nat) :
    (m.map fun p => if p.1 = n then (p.1, p.2 + 1) else p).map Prod.fst = m.map Prod.fst := by
  rw [List.map_map]
  apply List.map_congr_left
  intro p _
  by_cases h : p.1 = n
  · simp [Function.comp, h]
  · simp [Function.comp, h]

theorem bumpCount_mem : ∀ (m : List (Nat × Nat)) (n : Nat),
    (m.map Prod.fst).Nodup → n ∈ m.map Prod.fst →
    bumpCount m n = m.map fun p => if p.1 = n then (p.1, p.2 + 1) else p := by
  intro m
  induction m with
  | nil => intro n _ h; simp at h
  | cons p rest ih =>
    intro n hnd hmem
    obtain ⟨k, v⟩ := p
    rw [bumpCount_cons, List.map_cons]
    simp only [List.map_cons, List.nodup_cons] at hnd
    by_cases hk : k = n
    · subst hk
      rw [if_pos rfl]
      have hhead : (if ((k, v) : Nat × Nat).1 = k then (((k, v) : Nat × Nat).1, ((k, v) : Nat × Nat).2 + 1) else (k, v)) = (k, v + 1) := by simp
      rw [hhead]
      congr 1
      have hall : ∀ q ∈ rest, (if q.1 = k then (q.1, q.2 + 1) else q) = q := by
        intro q hq
        rw [if_neg]
        intro hq1
        exact hnd.1 (hq1 ▸ List.mem_map_of_mem Prod.fst hq)
      rw [List.map_congr_left hall]
      simp
    · rw [if_neg hk]
      have hhead : (if ((k, v) : Nat × Nat).1 = n then (((k, v) : Nat × Nat).1, ((k, v) : Nat × Nat).2 + 1) else (k, v)) = (k, v) := by simp [hk]
      rw [hhead]
      congr 1
      apply ih n hnd.2
      rw [List.map_cons] at hmem
      rcases List.mem_cons.mp hmem with h | h
      · exact absurd h.symm hk
      · exact h

theorem bumpCount_not_mem : ∀ (m : List (Nat × Nat)) (n : Nat),
    n ∉ m.map Prod.fst → bumpCount m n = m ++ [(n, 1)] := by
  intro m
  induction m with
  | nil => intro n _; rfl
  | cons p rest ih =>
    intro n hn
    obtain ⟨k, v⟩ := p
    simp only [List.map_cons, List.mem_cons, not_or] at hn
    rw [bumpCount_cons, if_neg (fun h => hn.1 h.symm), List.cons_append]
    congr 1
    exact ih n hn.2

theorem foldl_bumpCount : ∀ (l : List Nat) (m : List (Nat × Nat)),
    (m.map Prod.fst).Nodup →
    l.foldl bumpCount m =
      (m.map fun p => (p.1, p.2 + List.count p.1 l)) ++
        ((newKeys (m.map Prod.fst) l).map fun k => (k, List.count k l)) := by
  intro l
  induction l with
  | nil =>
    intro m _
    rw [newKeys_nil]
    simp
  | cons n rest ih =>
    intro m hnd
    rw [List.foldl_cons, newKeys_cons]
    by_cases hn : n ∈ m.map Prod.fst
    · rw [bumpCount_mem m n hnd hn, if_pos hn]
      rw [ih _ (by rw [mapIte_keys]; exact hnd)]
      rw [mapIte_keys]
      congr 1
      · rw [List.map_map]
        apply List.map_congr_left
        intro p _
        by_cases hp1 : p.1 = n
        · obtain ⟨p1, p2⟩ := p
          simp only at hp1
          subst hp1
          simp [Function.comp, List.count_cons_self, Nat.add_assoc, Nat.add_comm, Nat.add_left_comm]
        · simp only [Function.comp, if_neg hp1]
          rw [List.count_cons_of_ne hp1]
      · apply List.map_congr_left
        intro k hk
        have hkn : k ≠ n := by
          intro he
          exact (newKeys_not_mem rest (m.map Prod.fst) k hk) (he ▸ hn)
        rw [List.count_cons_of_ne hkn]
    · rw [bumpCount_not_mem m n hn, if_neg hn]
      have hnd' : ((m ++ [(n, 1)]).map Prod.fst).Nodup := by
        rw [List.map_append, List.nodup_append]
        refine ⟨hnd, by simp, ?_⟩
        intro a ha hb
        simp only [List.map_cons, List.map_nil, List.mem_singleton] at hb
        exact hn (hb ▸ ha)
      rw [ih _ hnd']
      rw [List.map_append]
      have hcong : newKeys ((m ++ [(n, 1)]).map Prod.fst) rest =
          newKeys (n :: m.map Prod.fst) rest := by
        apply newKeys_congr
        intro k
        simp [List.mem_append, or_comm]
      rw [hcong]
      have hhead : ([(n, 1)].map fun p => (p.1, p.2 + List.count p.1 rest)) =
          [(n, List.count n (n :: rest))] := by
        simp [List.count_cons_self, Nat.add_comm]
      rw [hhead]
      rw [List.append_assoc, List.singleton_append]
      congr 1
      · apply List.map_congr_left
        intro p hp
        have hp1 : p.1 ≠ n := by
          intro he
          exact hn (he ▸ List.mem_map_of_mem Prod.fst hp)
        rw [List.count_cons_of_ne hp1]
      · congr 1
        apply List.map_congr_left
        intro k hk
        have hkn : k ≠ n := by
          intro he
          have h2 := newKeys_not_mem rest (n :: m.map Prod.fst) k hk
          exact h2 (he ▸ List.mem_cons_self n (m.map Prod.fst))
        rw [List.count_cons_of_ne hkn]

theorem foldl_firstOccs : ∀ (l acc : List Nat),
    l.foldl (fun acc n => if n ∈ acc then acc else acc ++ [n]) acc = acc ++ newKeys acc l := by
  intro l
  induction l with
  | nil => intro acc; rw [newKeys_nil]; simp
  | cons n rest ih =>
    intro acc
    rw [List.foldl_cons, newKeys_cons]
    by_cases hn : n ∈ acc
    · rw [if_pos hn, if_pos hn]
      exact ih acc
    · rw [if_neg hn, if_neg hn, ih (acc ++ [n])]
      have hcong : newKeys (acc ++ [n]) rest = newKeys (n :: acc) rest := by
        apply newKeys_congr
        intro k
        simp [List.mem_append, or_comm]
      rw [hcong, List.append_assoc, List.singleton_append]

theorem countsOf_eq (l : List Nat) :
    countsOf l = (firstOccs l).map fun k => (k, List.count k l) := by
  unfold countsOf firstOccs
  rw [foldl_bumpCount l [] (by simp), foldl_firstOccs l []]
  simp [newKeys_nil]

theorem pickMode_fold (cnt : Nat → Nat) : ∀ (fo : List Nat) (s : Nat),
    List.foldl (fun acc p => if p.2 > acc.1 then (p.2, p.1) else acc) (cnt s, s)
      (fo.map fun v => (v, cnt v)) =
    (cnt (fo.foldl (fun best v => if cnt v > cnt best then v else best) s),
      fo.foldl (fun best v => if cnt v > cnt best then v else best) s) := by
  intro fo
  induction fo with
  | nil => intro s; rfl
  | cons v rest ih =>
    intro s
    simp only [List.map_cons, List.foldl_cons]
    by_cases h : cnt v > cnt s
    · simpa [h] using ih v
    · simpa [h] using ih s

theorem length_filter_ne (m : Nat) (l : List Nat) :
    (l.filter fun n => n ≠ m).length + List.count m l = l.length := by
  induction l with
  | nil => rfl
  | cons a rest ih =>
    rw [List.filter_cons, List.count_cons]
    by_cases h : a = m
    · subst h
      rw [if_neg (by simp), if_pos (by simp)]
      simp only [List.length_cons]
      omega
    · rw [if_pos (by simp [h]), if_neg (by simp [h])]
      simp only [List.length_cons]
      omega

theorem foldl_add_sum (f : Nat → Nat) : ∀ (l : List Nat) (init : Nat),
    l.foldl (fun sum n => sum + f n) init = init + (l.map f).sum := by
  intro l
  induction l with
  | nil => intro init; simp
  | cons a rest ih =>
    intro init
    rw [List.foldl_cons, List.map_cons, List.sum_cons, ih]
    omega

theorem pickMode_countsOf (rl : List Nat) (h0 : (0 : Nat) ∉ rl) :
    pickMode (countsOf rl) = (List.count (spec_mode rl) rl, spec_mode rl) := by
  rw [countsOf_eq]
  unfold pickMode spec_mode
  have hseed : ((0 : Nat), (0 : Nat)) = (List.count 0 rl, 0) := by
    rw [List.count_eq_zero.mpr h0]
  rw [hseed]
  exact pickMode_fold (fun k => List.count k rl) (firstOccs rl) 0

/-! ### Lemmas about candidate selection -/

theorem optLt_none_left (x : Option Nat) : optLt none x = false := rfl

theorem optLt_none_right (s : Option Nat) (h : s ≠ none) : optLt s none = true := by
  cases s with
  | none => exact absurd rfl h
  | some a => rfl

theorem chooseStep_eq (lines : List String) (cs : Bool) (acc : ChooseAcc)
    (c : String × Option String) :
    chooseStep lines cs acc c =
      if optLt (scoreTable (parseRowsSimple lines c.2 cs)) acc.bestScore
      then ⟨parseRowsSimple lines c.2 cs, c.1, scoreTable (parseRowsSimple lines c.2 cs)⟩
      else acc := rfl

theorem foldl_chooseStep_cases (lines : List String) (cs : Bool) :
    ∀ (cands : List (String × Option String)) (acc : ChooseAcc),
      List.foldl (chooseStep lines cs) acc cands = acc ∨
        ∃ c ∈ cands, List.foldl (chooseStep lines cs) acc cands =
          ⟨parseRowsSimple lines c.2 cs, c.1, scoreTable (parseRowsSimple lines c.2 cs)⟩ := by
  intro cands
  induction cands with
  | nil => intro acc; left; rfl
  | cons c rest ih =>
    intro acc
    rw [List.foldl_cons]
    by_cases h : optLt (scoreTable (parseRowsSimple lines c.2 cs)) acc.bestScore = true
    · have hstep : chooseStep lines cs acc c =
          ⟨parseRowsSimple lines c.2 cs, c.1, scoreTable (parseRowsSimple lines c.2 cs)⟩ := by
        rw [chooseStep_eq, if_pos h]
      rw [hstep]
      rcases ih (⟨parseRowsSimple lines c.2 cs, c.1,
          scoreTable (parseRowsSimple lines c.2 cs)⟩ : ChooseAcc) with h1 | ⟨c', hc', h2⟩
      · right
        exact ⟨c, List.mem_cons_self c rest, h1⟩
      · right
        exact ⟨c', List.mem_cons_of_mem c hc', h2⟩
    · have hstep : chooseStep lines cs acc c = acc := by
        rw [chooseStep_eq, if_neg h]
      rw [hstep]
      rcases ih acc with h1 | ⟨c', hc', h2⟩
      · left; exact h1
      · right
        exact ⟨c', List.mem_cons_of_mem c hc', h2⟩

theorem foldl_chooseStep_skip (lines : List String) (cs : Bool) :
    ∀ (cands : List (String × Option String)) (acc : ChooseAcc),
      (∀ c ∈ cands, optLt (scoreTable (parseRowsSimple lines c.2 cs)) acc.bestScore = false) →
      List.foldl (chooseStep lines cs) acc cands = acc := by
  intro cands
  induction cands with
  | nil => intro acc _; rfl
  | cons c rest ih =>
    intro acc h
    rw [List.foldl_cons]
    have hstep : chooseStep lines cs acc c = acc := by
      rw [chooseStep_eq, if_neg (by rw [h c (List.mem_cons_self c rest)]; simp)]
    rw [hstep]
    exact ih acc fun c' hc' => h c' (List.mem_cons_of_mem c hc')

theorem foldl_chooseStep_wins (lines : List String) (cs : Bool)
    (A B : List (String × Option String)) (c : String × Option String)
    (hne : scoreTable (parseRowsSimple lines c.2 cs) ≠ none)
    (hA : ∀ c' ∈ A, optLt (scoreTable (parseRowsSimple lines c.2 cs))
      (scoreTable (parseRowsSimple lines c'.2 cs)) = true)
    (hB : ∀ c' ∈ B, optLt (scoreTable (parseRowsSimple lines c'.2 cs))
      (scoreTable (parseRowsSimple lines c.2 cs)) = false) :
    List.foldl (chooseStep lines cs) ⟨[], "auto", none⟩ (A ++ c :: B) =
      ⟨parseRowsSimple lines c.2 cs, c.1, scoreTable (parseRowsSimple lines c.2 cs)⟩ := by
  rw [List.foldl_append, List.foldl_cons]
  rcases foldl_chooseStep_cases lines cs A ⟨[], "auto", none⟩ with h1 | ⟨c', hc', h2⟩
  · rw [h1]
    have hstep : chooseStep lines cs ⟨[], "auto", none⟩ c =
        ⟨parseRowsSimple lines c.2 cs, c.1, scoreTable (parseRowsSimple lines c.2 cs)⟩ := by
      rw [chooseStep_eq, if_pos (optLt_none_right _ hne)]
    rw [hstep]
    exact foldl_chooseStep_skip lines cs B _ fun c' hc' => hB c' hc'
  · rw [h2]
    have hstep : chooseStep lines cs
        ⟨parseRowsSimple lines c'.2 cs, c'.1, scoreTable (parseRowsSimple lines c'.2 cs)⟩ c =
        ⟨parseRowsSimple lines c.2 cs, c.1, scoreTable (parseRowsSimple lines c.2 cs)⟩ := by
      rw [chooseStep_eq, if_pos (hA c' hc')]
    rw [hstep]
    exact foldl_chooseStep_skip lines cs B _ fun c'' hc'' => hB c'' hc''

theorem scoreTable_of_lengths (t1 t2 : List (List String))
    (h : t1.map List.length = t2.map List.length) : scoreTable t1 = scoreTable t2 := by
  simp only [scoreTable, h]

theorem parseRows_lengths (lines : List String) (d : Option String) (cs : Bool) :
    (parseRowsSimple lines d cs).map List.length =
      lines.map fun l => (splitLine l d).length := by
  simp [parseRowsSimple, List.map_map, Function.comp]

theorem score_cs_indep (lines : List String) (d : Option String) (cs1 cs2 : Bool) :
    scoreTable (parseRowsSimple lines d cs1) = scoreTable (parseRowsSimple lines d cs2) :=
  scoreTable_of_lengths _ _ (by rw [parseRows_lengths, parseRows_lengths])

theorem foldl_chooseStep_detected (lines : List String) (cs1 cs2 : Bool) :
    ∀ (cands : List (String × Option String)) (a1 a2 : ChooseAcc),
      a1.bestDetected = a2.bestDetected → a1.bestScore = a2.bestScore →
      (List.foldl (chooseStep lines cs1) a1 cands).bestDetected =
          (List.foldl (chooseStep lines cs2) a2 cands).bestDetected ∧
        (List.foldl (chooseStep lines cs1) a1 cands).bestScore =
          (List.foldl (chooseStep lines cs2) a2 cands).bestScore := by
  intro cands
  induction cands with
  | nil => intro a1 a2 hd hs; exact ⟨hd, hs⟩
  | cons c rest ih =>
    intro a1 a2 hd hs
    rw [List.foldl_cons, List.foldl_cons]
    have hstep : (chooseStep lines cs1 a1 c).bestDetected =
        (chooseStep lines cs2 a2 c).bestDetected ∧
        (chooseStep lines cs1 a1 c).bestScore = (chooseStep lines cs2 a2 c).bestScore := by
      rw [chooseStep_eq, chooseStep_eq, score_cs_indep lines c.2 cs1 cs2, hs]
      by_cases h : optLt (scoreTable (parseRowsSimple lines c.2 cs2)) a2.bestScore = true
      · rw [if_pos h, if_pos h]
        exact ⟨rfl, rfl⟩
      · rw [if_neg h, if_neg h]
        exact ⟨hd, hs⟩
    exact ih _ _ hstep.1 hstep.2

/-! ### Lemmas about cleaning -/

theorem removeEmptyColumns_nil : removeEmptyColumns [] = [] := rfl

theorem removeEmptyColumns_eq (u : List (List String)) (h : u.isEmpty = false) :
    removeEmptyColumns u = u.map fun row => filterIdx (fun j => colHasValue u j) 0 row := by
  unfold removeEmptyColumns
  rw [h]
  simp

theorem map_isEmpty_false (f : List String → List String) (u : List (List String))
    (h : u.isEmpty = false) : (u.map f).isEmpty = false := by
  cases u with
  | nil => simp at h
  | cons r rest => rfl

theorem getD_out (row : List String) (j : Nat) (h : row.length ≤ j) : row.getD j "" = "" := by
  rw [List.getD_eq_getElem?_getD, List.getElem?_eq_none h, Option.getD_none]

theorem getD_in (row : List String) (j : Nat) (h : j < row.length) :
    row.getD j "" = row.get ⟨j, h⟩ := by
  rw [List.getD_eq_getElem?_getD, List.getElem?_eq_getElem h, Option.getD_some]
  rfl

theorem keptBelow_split (keep : Nat → Bool) (n j : Nat) (hkeep : keep j = true)
    (hjn : j < n) :
    keptBelow keep 0 n =
      keptBelow keep 0 j ++ (j :: keptBelow keep (j + 1) (n - j - 1)) := by
  have h1 : n = j + (n - j) := by omega
  have h2 := keptBelow_append keep j 0 (n - j)
  rw [Nat.zero_add] at h2
  have h3 : n - j = (n - j - 1) + 1 := by omega
  rw [h3, keptBelow_succ, if_pos hkeep] at h2
  calc keptBelow keep 0 n = keptBelow keep 0 (j + ((n - j - 1) + 1)) := by
        congr 1
        omega
    _ = keptBelow keep 0 j ++ (j :: keptBelow keep (j + 1) (n - j - 1)) := h2

theorem keptBelow_getElem_pos (keep : Nat → Bool) (n k j : Nat)
    (h : (keptBelow keep 0 n)[k]? = some j) :
    k = (keptBelow keep 0 j).length ∧ keep j = true ∧ j < n := by
  have hjmem := mem_of_getElemQ h
  have hb := keptBelow_mem keep n 0 j hjmem
  have hkeep : keep j = true := hb.1
  have hjn : j < n := by omega
  refine ⟨?_, hkeep, hjn⟩
  have hdec := keptBelow_split keep n j hkeep hjn
  rw [hdec] at h
  rcases Nat.lt_trichotomy k (keptBelow keep 0 j).length with hlt | heq | hgt
  · rw [List.getElem?_append, if_pos hlt] at h
    have hmem' := mem_of_getElemQ h
    have hb' := keptBelow_mem keep j 0 j hmem'
    omega
  · exact heq
  · rw [List.getElem?_append_right (by omega)] at h
    have hpos : k - (keptBelow keep 0 j).length = (k - (keptBelow keep 0 j).length - 1) + 1 := by
      omega
    rw [hpos, List.getElem?_cons_succ] at h
    have hmem' := mem_of_getElemQ h
    have hb' := keptBelow_mem keep (n - j - 1) (j + 1) j hmem'
    omega

theorem keptBelow_getElem_of_pos (keep : Nat → Bool) (m j : Nat) (hkeep : keep j = true)
    (hjm : j < m) :
    (keptBelow keep 0 m)[(keptBelow keep 0 j).length]? = some j := by
  rw [keptBelow_split keep m j hkeep hjm,
    List.getElem?_append_right (Nat.le_refl _), Nat.sub_self]
  exact List.getElem?_cons_zero

theorem norm_rows_fixed (b : Bool) (t : List (List String)) :
    ∀ r ∈ t.map fun row => row.map fun c => normalizeCell c b,
      r.map (fun c => normalizeCell c b) = r := by
  intro r hr
  rcases List.mem_map.mp hr with ⟨r0, _, rfl⟩
  rw [List.map_map]
  apply List.map_congr_left
  intro c _
  exact normalizeCell_idem c b

theorem removeEmptyColumns_norm_fixed (b : Bool) (u : List (List String))
    (hufix : ∀ r ∈ u, r.map (fun c => normalizeCell c b) = r) :
    (removeEmptyColumns u).map (fun row => row.map fun c => normalizeCell c b) =
      removeEmptyColumns u := by
  by_cases he : u.isEmpty = true
  · have hnil : u = [] := by cases u with | nil => rfl | cons r rest => simp at he
    subst hnil
    rfl
  · have he' : u.isEmpty = false := by simpa using he
    rw [removeEmptyColumns_eq u he', List.map_map]
    apply List.map_congr_left
    intro r hr
    show (filterIdx (fun j => colHasValue u j) 0 r).map (fun c => normalizeCell c b) =
      filterIdx (fun j => colHasValue u j) 0 r
    rw [filterIdx_map, hufix r hr]

theorem removeEmptyColumns_rows_nonempty (u : List (List String))
    (hrowval : ∀ r ∈ u, rowHasAnyValue r = true) :
    (removeEmptyColumns u).filter rowHasAnyValue = removeEmptyColumns u := by
  rw [List.filter_eq_self]
  intro r' hr'
  by_cases he : u.isEmpty = true
  · have hnil : u = [] := by cases u with | nil => rfl | cons r rest => simp at he
    subst hnil
    simp [removeEmptyColumns_nil] at hr'
  · have he' : u.isEmpty = false := by simpa using he
    rw [removeEmptyColumns_eq u he'] at hr'
    rcases List.mem_map.mp hr' with ⟨r, hrmem, rfl⟩
    have hval := hrowval r hrmem
    unfold rowHasAnyValue at hval ⊢
    rcases List.any_eq_true.mp hval with ⟨c, hcmem, hcval⟩
    rcases List.mem_iff_get.mp hcmem with ⟨⟨j, hj⟩, rfl⟩
    apply List.any_eq_true.mpr
    refine ⟨r.get ⟨j, hj⟩, ?_, hcval⟩
    apply mem_filterIdx (fun i => colHasValue u i) r 0 j hj
    show colHasValue u (0 + j) = true
    rw [Nat.zero_add]
    unfold colHasValue
    apply List.any_eq_true.mpr
    refine ⟨r, hrmem, ?_⟩
    rw [getD_in r j hj]
    exact hcval

theorem removeEmptyColumns_idem (u : List (List String)) :
    removeEmptyColumns (removeEmptyColumns u) = removeEmptyColumns u := by
  by_cases he : u.isEmpty = true
  · have hnil : u = [] := by cases u with | nil => rfl | cons r rest => simp at he
    subst hnil
    rfl
  · have he' : u.isEmpty = false := by simpa using he
    rw [removeEmptyColumns_eq u he']
    have he'' : (u.map fun row => filterIdx (fun j => colHasValue u j) 0 row).isEmpty = false :=
      map_isEmpty_false _ u he'
    rw [removeEmptyColumns_eq _ he'']
    have hcol : ∀ (r : List String), r ∈ u → ∀ k,
        k < (filterIdx (fun j => colHasValue u j) 0 r).length →
        colHasValue (u.map fun row => filterIdx (fun j => colHasValue u j) 0 row) k = true := by
      intro r hr k hk
      rw [filterIdx_length] at hk
      obtain ⟨j, hjK⟩ : ∃ j, (keptBelow (fun j => colHasValue u j) 0 r.length)[k]? = some j :=
        ⟨(keptBelow (fun j => colHasValue u j) 0 r.length).get ⟨k, hk⟩,
          by rw [List.getElem?_eq_getElem hk]; rfl⟩
      have hKr := keptBelow_getElem_pos (fun j => colHasValue u j) r.length k j hjK
      have hkeepj : colHasValue u j = true := hKr.2.1
      have hwit := hkeepj
      unfold colHasValue at hwit
      rcases List.any_eq_true.mp hwit with ⟨w, hwmem, hwval⟩
      have hjw : j < w.length := by
        by_contra hge
        rw [getD_out w j (by omega)] at hwval
        simp at hwval
        exact hwval rfl
      have hKw := keptBelow_getElem_of_pos (fun j => colHasValue u j) w.length j hKr.2.1 hjw
      have hw' : (filterIdx (fun j => colHasValue u j) 0 w)[k]? = some (w.get ⟨j, hjw⟩) := by
        rw [filterIdx_getElem?, hKr.1, hKw, Option.some_bind, Nat.sub_zero,
          List.getElem?_eq_getElem hjw]
        rfl
      unfold colHasValue
      apply List.any_eq_true.mpr
      refine ⟨filterIdx (fun j => colHasValue u j) 0 w, List.mem_map_of_mem _ hwmem, ?_⟩
      rw [List.getD_eq_getElem?_getD, hw', Option.getD_some]
      rw [getD_in w j hjw] at hwval
      exact hwval
    have hfix : ∀ r' ∈ u.map fun row => filterIdx (fun j => colHasValue u j) 0 row,
        filterIdx (fun k => colHasValue
          (u.map fun row => filterIdx (fun j => colHasValue u j) 0 row) k) 0 r' = r' := by
      intro r' hr'
      rcases List.mem_map.mp hr' with ⟨r, hrmem, rfl⟩
      apply filterIdx_eq_self
      intro k hk
      rw [Nat.zero_add]
      exact hcol r hrmem k hk
    calc (u.map fun row => filterIdx (fun j => colHasValue u j) 0 row).map
          (fun row => filterIdx (fun k => colHasValue
            (u.map fun row => filterIdx (fun j => colHasValue u j) 0 row) k) 0 row)
        = (u.map fun row => filterIdx (fun j => colHasValue u j) 0 row).map id :=
          List.map_congr_left fun r' hr' => hfix r' hr'
      _ = u.map fun row => filterIdx (fun j => colHasValue u j) 0 row :=
          List.map_id _

theorem applyCleaning_eq (o : CleaningOptions) (t : List (List String)) :
    applyCleaning o t =
      (if o.removeEmptyColumns then removeEmptyColumns else id)
        ((if o.removeEmptyRows then (List.filter rowHasAnyValue) else id)
          (t.map fun row => row.map fun c => normalizeCell c o.collapseSpaces)) := by
  unfold applyCleaning
  by_cases hr : o.removeEmptyRows <;> by_cases hc : o.removeEmptyColumns <;>
    simp [hr, hc]

theorem applyCleaning_tt (o : CleaningOptions) (t : List (List String))
    (hr : o.removeEmptyRows = true) (hc : o.removeEmptyColumns = true) :
    applyCleaning o t = removeEmptyColumns
      ((t.map fun row => row.map fun c => normalizeCell c o.collapseSpaces).filter
        rowHasAnyValue) := by
  rw [applyCleaning_eq, hr, hc]
  simp

theorem splitLine_literal (line d : String) (hd : d ≠ "") :
    splitLine line (some d) = jsSplitStr line d := by
  show (if d = "" then autoSplit line else jsSplitStr line d) = jsSplitStr line d
  rw [if_neg hd]

theorem toMarkdownTable_eq_spec (data : List (List String)) :
    toMarkdownTable data = spec_serializeMarkdown data := by
  cases data with
  | nil => rfl
  | cons headRow rest =>
    simp only [toMarkdownTable, spec_serializeMarkdown, spec_renderRow, spec_padRow,
      List.isEmpty_cons, Bool.false_eq_true, if_false, List.map_cons, List.drop_succ_cons,
      List.drop_zero, List.headD_cons, List.map_map]
    rfl

/-! ### Claim theorems -/

/-- Claim C1, counterexample: the `tabs` candidate of
`chooseBestTableSimple` passes the literal delimiter `"\t"` to
`splitLine`, so the line `"a;b"` stays a single cell in that candidate
pass, while the per-line rule of the specification would split it on
the semicolon into two cells. -/
theorem C1_tabs_candidate_not_per_line :
    candList.getD 0 ("", none) = ("tabs", some "\t") ∧
      parseRowsSimple ["a;b"] (some "\t") false = [["a;b"]] ∧
      spec_perLineSplit "a;b" = ["a", "b"] ∧
      (["a;b"] : List String) ≠ ["a", "b"] := by
  refine ⟨rfl, by decide, by decide, by decide⟩

/-- Claim C1, amended: within auto-detection the `tabs`, `pipe` and
`semicolon` candidates split every line on their literal delimiter;
only the `spaces` candidate (null delimiter) uses the per-line rule
(tab, then semicolon, then pipe, then a run of 2+ spaces). -/
theorem C1_candidate_literal_split (lines : List String) (cs : Bool) :
    (parseRowsSimple lines (some "\t") cs =
      lines.map fun l => (jsSplitStr l "\t").map fun c => normalizeCell c cs) ∧
    (parseRowsSimple lines (some "|") cs =
      lines.map fun l => (jsSplitStr l "|").map fun c => normalizeCell c cs) ∧
    (parseRowsSimple lines (some ";") cs =
      lines.map fun l => (jsSplitStr l ";").map fun c => normalizeCell c cs) ∧
    (parseRowsSimple lines none cs =
      lines.map fun l => (spec_perLineSplit l).map fun c => normalizeCell c cs) := by
  refine ⟨?_, ?_, ?_, rfl⟩ <;>
    · unfold parseRowsSimple
      apply List.map_congr_left
      intro l _
      rw [splitLine_literal l _ (by decide)]

/-- Claim C2, counterexample: with `removeEmptyColumns = true` the
cleaned table of the ragged input `[["a","b"],["c"]]` is the unchanged
ragged table — rows are filtered over their own indices only, so the
output is non-empty with rows of different lengths. -/
theorem C2_ragged_survives_column_removal :
    applyCleaning ⟨false, true, true⟩ [["a", "b"], ["c"]] = [["a", "b"], ["c"]] ∧
      applyCleaning ⟨false, true, true⟩ [["a", "b"], ["c"]] ≠ [] ∧
      ∃ r ∈ applyCleaning ⟨false, true, true⟩ [["a", "b"], ["c"]],
        r.length ≠ ((applyCleaning ⟨false, true, true⟩ [["a", "b"], ["c"]]).headD []).length := by
  refine ⟨by decide, by decide, by decide⟩

/-- Claim C2, amended: when `removeEmptyColumns = true` and every row
of the input has the same length, the table returned by `clean` is
empty or has every row of the same length.  (Ragged input can remain
ragged, since the column filter never pads short rows.) -/
theorem C2_uniform_input_uniform_output (o : CleaningOptions) (t : List (List String))
    (n : Nat) (hc : o.removeEmptyColumns = true) (hu : ∀ r ∈ t, r.length = n) :
    ∃ m, ∀ r ∈ applyCleaning o t, r.length = m := by
  rw [applyCleaning_eq, hc]
  simp only [if_true]
  set u := (if o.removeEmptyRows then (List.filter rowHasAnyValue) else id)
    (t.map fun row => row.map fun c => normalizeCell c o.collapseSpaces) with hudef
  have hulen : ∀ r ∈ u, r.length = n := by
    intro r hru
    have hru0 : r ∈ t.map fun row => row.map fun c => normalizeCell c o.collapseSpaces := by
      rw [hudef] at hru
      by_cases hrr : o.removeEmptyRows
      · rw [if_pos hrr] at hru
        exact (List.mem_filter.mp hru).1
      · rw [if_neg hrr] at hru
        exact hru
    rcases List.mem_map.mp hru0 with ⟨r0, hr0, rfl⟩
    rw [List.length_map]
    exact hu r0 hr0
  by_cases he : u.isEmpty = true
  · have hnil : u = [] := by
      cases hu2 : u with
      | nil => rfl
      | cons r rest => rw [hu2] at he; simp at he
    refine ⟨0, ?_⟩
    rw [hnil, removeEmptyColumns_nil]
    intro r hr
    simp at hr
  · have he' : u.isEmpty = false := by simpa using he
    refine ⟨(keptBelow (fun j => colHasValue u j) 0 n).length, ?_⟩
    intro r hr
    rw [removeEmptyColumns_eq u he'] at hr
    rcases List.mem_map.mp hr with ⟨r0, hr0, rfl⟩
    rw [filterIdx_length, hulen r0 hr0]

/-- Claim C2, witness: a concrete uniform table with both removal
options on, cleaned to a uniform table. -/
theorem C2_uniform_witness :
    (CleaningOptions.mk true true true).removeEmptyColumns = true ∧
      (∀ r ∈ ([["a", ""], ["", "x"]] : List (List String)), r.length = 2) ∧
      ∃ m, ∀ r ∈ applyCleaning ⟨true, true, true⟩ [["a", ""], ["", "x"]], r.length = m :=
  ⟨rfl, by decide,
    C2_uniform_input_uniform_output ⟨true, true, true⟩ [["a", ""], ["", "x"]] 2 rfl (by decide)⟩

/-- Claim C3: the consistency score of the code equals the score
described by the specification — rows with zero cells are discarded,
the score is infinite exactly when the distribution is empty or the
maximum cell count is at most one, and otherwise it is ten times the
number of rows whose cell count differs from the mode plus the summed
distance to the mode, where the mode is the most frequent cell count
with ties broken in favour of the value first encountered in insertion
order of first occurrence. -/
theorem C3_score_matches_spec (table : List (List String)) :
    scoreTable table = spec_scoreTable table := by
  simp only [scoreTable, spec_scoreTable]
  by_cases he : ((table.map List.length).filter fun n => n > 0).isEmpty
  · simp [he]
  · simp only [he, Bool.false_eq_true, if_false]
    by_cases hm : ((table.map List.length).filter fun n => n > 0).foldl Nat.max 0 ≤ 1
    · rw [if_pos hm, if_pos hm]
    · rw [if_neg hm, if_neg hm]
      have h0 : (0 : Nat) ∉ (table.map List.length).filter fun n => n > 0 := by
        intro hmem
        have h1 := (List.mem_filter.mp hmem).2
        simp at h1
      rw [pickMode_countsOf _ h0]
      dsimp only
      congr 1
      rw [foldl_add_sum
        (fun n => absDiff n (spec_mode ((table.map List.length).filter fun n => n > 0)))]
      have hlen := length_filter_ne
        (spec_mode ((table.map List.length).filter fun n => n > 0))
        ((table.map List.length).filter fun n => n > 0)
      omega

/-- Claim C5, counterexample: the explicit-delimiter label emitted by
the code is `custom (,)` — with a space between `custom` and the
parenthesis — not `custom(,)` as the claim spells it. -/
theorem C5_label_has_space :
    infer ["a,b", "c,d"] "," false = some ([["a", "b"], ["c", "d"]], "custom (,)") ∧
      ("custom (,)" : String) ≠ "custom(,)" := by
  refine ⟨by decide, by decide⟩

/-- Claim C5, amended: a non-empty explicit delimiter bypasses
auto-detection and scoring entirely: every line is split on literal
occurrences of the delimiter string and the label is
`custom (<delimiter>)` (the code puts a space before the
parenthesis). -/
theorem C5_explicit_delimiter_override (lines : List String) (d : String) (cs : Bool)
    (hd : d ≠ "") :
    infer lines d cs =
      some (lines.map fun l => (jsSplitStr l d).map fun c => normalizeCell c cs,
        "custom (" ++ d ++ ")") := by
  unfold infer
  rw [if_pos hd]
  have hmap : parseRowsSimple lines (some d) cs =
      lines.map fun l => (jsSplitStr l d).map fun c => normalizeCell c cs := by
    unfold parseRowsSimple
    apply List.map_congr_left
    intro l _
    rw [splitLine_literal l d hd]
  rw [hmap]

/-- Claim C5, witness: the concrete override of the specification's
test case, with the label the code actually produces. -/
theorem C5_override_witness :
    ("," : String) ≠ "" ∧
      infer ["a,b", "c,d"] "," false = some ([["a", "b"], ["c", "d"]], "custom (,)") := by
  refine ⟨by decide, ?_⟩
  rw [C5_explicit_delimiter_override ["a,b", "c,d"] "," false (by decide)]
  decide

/-- Claim C6, counterexample: on the single line `"hello"` every
candidate scores infinite, and `chooseBestTableSimple` returns the
empty table labelled `"auto"` — not the one-cell-row table
`[["hello"]]` that whitespace-run splitting would give. -/
theorem C6_all_infinite_empty_table :
    chooseBestTableSimple ["hello"] true = ([], "auto") ∧
      parseRowsSimple ["hello"] none true = [["hello"]] ∧
      (([] : List (List String)) ≠ [["hello"]]) := by
  refine ⟨by decide, by decide, by decide⟩

/-- Claim C6, amended: when every candidate scores infinite, the
initial accumulator is never replaced (Infinity is not below
Infinity), so auto-detection returns the empty table with the label
`"auto"`; the caller's any-row-with-more-than-one-cell check is false
on that table, so it is still reported as no real table. -/
theorem C6_all_infinite_auto (lines : List String) (cs : Bool)
    (h : ∀ c ∈ candList, scoreTable (parseRowsSimple lines c.2 cs) = none) :
    chooseBestTableSimple lines cs = ([], "auto") ∧
      ((chooseBestTableSimple lines cs).1.any fun r => r.length > 1) = false := by
  have hfold : candList.foldl (chooseStep lines cs) ⟨[], "auto", none⟩ = ⟨[], "auto", none⟩ :=
    foldl_chooseStep_skip lines cs candList _ fun c hc => by rw [h c hc]; rfl
  have hcb : chooseBestTableSimple lines cs = ([], "auto") := by
    unfold chooseBestTableSimple
    rw [hfold]
  refine ⟨hcb, by rw [hcb]; rfl⟩

/-- Claim C6, witness: the single delimiter-free line, with all four
candidate scores checked to be infinite. -/
theorem C6_auto_witness :
    (∀ c ∈ candList, scoreTable (parseRowsSimple ["hello"] c.2 true) = none) ∧
      chooseBestTableSimple ["hello"] true = ([], "auto") := by
  have hh : ∀ c ∈ candList, scoreTable (parseRowsSimple ["hello"] c.2 true) = none := by decide
  exact ⟨hh, (C6_all_infinite_auto ["hello"] true hh).1⟩

/-- Claim C7: `clean` applies its passes in the fixed order normalize,
then row removal, then column removal on the row-filtered table; on
the table `[["a",""],["","x"]]` with both removal options on, no row
and no column is deleted. -/
theorem C7_fixed_cleaning_order :
    (∀ (o : CleaningOptions) (t : List (List String)),
      applyCleaning o t =
        (if o.removeEmptyColumns then removeEmptyColumns else id)
          ((if o.removeEmptyRows then (List.filter rowHasAnyValue) else id)
            (t.map fun row => row.map fun c => normalizeCell c o.collapseSpaces))) ∧
    (∀ b : Bool, applyCleaning ⟨b, true, true⟩ [["a", ""], ["", "x"]] = [["a", ""], ["", "x"]]) := by
  constructor
  · exact applyCleaning_eq
  · intro b
    cases b with
    | false => decide
    | true => decide

/-- Claim C9: Markdown serialization agrees with the specification's
description (pad to the maximum row length, first row as header,
newline collapse and pipe escaping per cell, one `---` per column),
and on `[["H1","H2"],["v|1","v2"]]` it produces exactly the three
expected lines. -/
theorem C9_markdown_serialization :
    toMarkdownTable [["H1", "H2"], ["v|1", "v2"]] =
        "| H1 | H2 |\n| --- | --- |\n| v\\|1 | v2 |" ∧
      ∀ data : List (List String), toMarkdownTable data = spec_serializeMarkdown data := by
  constructor
  · decide
  · exact toMarkdownTable_eq_spec

/-- Claim C10: candidate scores, and the detected strategy label, do
not depend on the `collapseSpaces` cleaning option. -/
theorem C10_score_collapse_independent :
    (∀ (lines : List String) (d : Option String) (cs1 cs2 : Bool),
      scoreTable (parseRowsSimple lines d cs1) = scoreTable (parseRowsSimple lines d cs2)) ∧
    (∀ (lines : List String) (cs1 cs2 : Bool),
      (chooseBestTableSimple lines cs1).2 = (chooseBestTableSimple lines cs2).2) := by
  constructor
  · exact fun lines d cs1 cs2 => score_cs_indep lines d cs1 cs2
  · intro lines cs1 cs2
    exact (foldl_chooseStep_detected lines cs1 cs2 candList
      ⟨[], "auto", none⟩ ⟨[], "auto", none⟩ rfl rfl).1

/-- Claim C4: auto-detection scans the fixed candidate list in the
order tabs, pipe, semicolon, spaces and selects the first candidate
whose (finite) score is strictly below every earlier candidate's score
and not beaten strictly by any later candidate — so the strictly
lowest score wins and an equal later score never replaces an earlier
winner. -/
theorem C4_first_lowest_score_wins (lines : List String) (cs : Bool) (i : Nat)
    (hi : i < candList.length)
    (hne : scoreAt lines cs i ≠ none)
    (hbefore : ∀ j, j < i → optLt (scoreAt lines cs i) (scoreAt lines cs j) = true)
    (hafter : ∀ j, i < j → j < candList.length →
      optLt (scoreAt lines cs j) (scoreAt lines cs i) = false) :
    chooseBestTableSimple lines cs =
      (parseRowsSimple lines (candList.getD i ("", none)).2 cs,
        (candList.getD i ("", none)).1) := by
  have hi4 : i < 4 := hi
  unfold chooseBestTableSimple
  interval_cases i
  · have hw : candList.foldl (chooseStep lines cs) ⟨[], "auto", none⟩ =
        ⟨parseRowsSimple lines (some "\t") cs, "tabs",
          scoreTable (parseRowsSimple lines (some "\t") cs)⟩ :=
      foldl_chooseStep_wins lines cs []
        [("pipe", some "|"), ("semicolon", some ";"), ("spaces", none)] ("tabs", some "\t")
        hne
        (by intro c' hc'; simp at hc')
        (by
          intro c' hc'
          fin_cases hc'
          · exact hafter 1 (by decide) (by decide)
          · exact hafter 2 (by decide) (by decide)
          · exact hafter 3 (by decide) (by decide))
    rw [hw]
    rfl
  · have hw : candList.foldl (chooseStep lines cs) ⟨[], "auto", none⟩ =
        ⟨parseRowsSimple lines (some "|") cs, "pipe",
          scoreTable (parseRowsSimple lines (some "|") cs)⟩ :=
      foldl_chooseStep_wins lines cs [("tabs", some "\t")]
        [("semicolon", some ";"), ("spaces", none)] ("pipe", some "|")
        hne
        (by
          intro c' hc'
          fin_cases hc'
          exact hbefore 0 (by decide))
        (by
          intro c' hc'
          fin_cases hc'
          · exact hafter 2 (by decide) (by decide)
          · exact hafter 3 (by decide) (by decide))
    rw [hw]
    rfl
  · have hw : candList.foldl (chooseStep lines cs) ⟨[], "auto", none⟩ =
        ⟨parseRowsSimple lines (some ";") cs, "semicolon",
          scoreTable (parseRowsSimple lines (some ";") cs)⟩ :=
      foldl_chooseStep_wins lines cs [("tabs", some "\t"), ("pipe", some "|")]
        [("spaces", none)] ("semicolon", some ";")
        hne
        (by
          intro c' hc'
          fin_cases hc'
          · exact hbefore 0 (by decide)
          · exact hbefore 1 (by decide))
        (by
          intro c' hc'
          fin_cases hc'
          exact hafter 3 (by decide) (by decide))
    rw [hw]
    rfl
  · have hw : candList.foldl (chooseStep lines cs) ⟨[], "auto", none⟩ =
        ⟨parseRowsSimple lines none cs, "spaces",
          scoreTable (parseRowsSimple lines none cs)⟩ :=
      foldl_chooseStep_wins lines cs
        [("tabs", some "\t"), ("pipe", some "|"), ("semicolon", some ";")]
        [] ("spaces", none)
        hne
        (by
          intro c' hc'
          fin_cases hc'
          · exact hbefore 0 (by decide)
          · exact hbefore 1 (by decide)
          · exact hbefore 2 (by decide))
        (by intro c' hc'; simp at hc')
    rw [hw]
    rfl

/-- Claim C4, witness: on a two-line pipe table, the tabs candidate is
infinite, pipe is the first finite score (the spaces candidate ties it
later and does not win), and pipe is selected. -/
theorem C4_pipe_wins_witness :
    chooseBestTableSimple ["Name | Age", "Alice | 24"] true =
      ([["Name", "Age"], ["Alice", "24"]], "pipe") := by
  have h := C4_first_lowest_score_wins ["Name | Age", "Alice | 24"] true 1
    (by decide) (by decide)
    (by
      intro j hj
      interval_cases j
      decide)
    (by
      intro j hj1 hj2
      have hj4 : j < 4 := hj2
      interval_cases j
      · decide
      · decide)
  rw [h]
  decide

/-- Claim C8: with both removal options on, `clean` is idempotent — a
second pass changes no cell and removes no further row or column. -/
theorem C8_clean_idempotent (o : CleaningOptions) (t : List (List String))
    (hr : o.removeEmptyRows = true) (hc : o.removeEmptyColumns = true) :
    applyCleaning o (applyCleaning o t) = applyCleaning o t := by
  rw [applyCleaning_tt o (applyCleaning o t) hr hc, applyCleaning_tt o t hr hc]
  have hufix : ∀ r ∈ (t.map fun row => row.map fun c =>
        normalizeCell c o.collapseSpaces).filter rowHasAnyValue,
      r.map (fun c => normalizeCell c o.collapseSpaces) = r := by
    intro r hru
    exact norm_rows_fixed o.collapseSpaces t r (List.mem_filter.mp hru).1
  have hrowval : ∀ r ∈ (t.map fun row => row.map fun c =>
        normalizeCell c o.collapseSpaces).filter rowHasAnyValue,
      rowHasAnyValue r = true := fun r hru => (List.mem_filter.mp hru).2
  rw [removeEmptyColumns_norm_fixed o.collapseSpaces _ hufix,
    removeEmptyColumns_rows_nonempty _ hrowval,
    removeEmptyColumns_idem]

/-- Claim C8, witness: idempotence on a concrete table with whitespace
cells and an all-empty row. -/
theorem C8_idempotent_witness :
    (CleaningOptions.mk true true true).removeEmptyRows = true ∧
      (CleaningOptions.mk true true true).removeEmptyColumns = true ∧
      applyCleaning ⟨true, true, true⟩
          (applyCleaning ⟨true, true, true⟩ [["a", " b  c "], ["", ""]]) =
        applyCleaning ⟨true, true, true⟩ [["a", " b  c "], ["", ""]] :=
  ⟨rfl, rfl, C8_clean_idempotent ⟨true, true, true⟩ [["a", " b  c "], ["", ""]] rfl rfl⟩
